import Mathlib

/-!
Shallow embedding of the paradoodle sprite-container decoder (src/main.rs).

Bytes are modelled as `Nat`; fixed-width machine arithmetic is made explicit
with `% 2^w` where the Rust types (`u8`, `u16`, `u32`) matter.  Code that can
panic in Rust (out-of-bounds reads of the `bytes` crate, `expect`, slicing,
division by zero) is modelled with `Option`, where `none` stands for a panic.
Images (the `image` crate's `RgbaImage`) are modelled as a width, a height and
a pixel function; `put_pixel` is a pointwise update, `copy_from` is a guarded
region update mirroring `GenericImage::copy_from`.
-/

namespace Paradoodle

/-- RGBA color with 8-bit channels, as `image::Rgba<u8>`. -/
structure Rgba where
  r : Nat
  g : Nat
  b : Nat
  a : Nat
deriving DecidableEq, Repr

/-- In-memory RGBA image: dimensions plus a total pixel function
(`image::RgbaImage`). Pixels outside the bounds are irrelevant. -/
structure Img where
  width : Nat
  height : Nat
  pix : Nat → Nat → Rgba

/-- A fresh image, zero-initialized like `RgbaImage::new`. -/
def newImg (w h : Nat) : Img :=
  { width := w, height := h, pix := fun _ _ => ⟨0, 0, 0, 0⟩ }

/-- Pointwise pixel update, as `RgbaImage::put_pixel` (callers guard bounds;
the embedding's callers model the panic on out-of-bounds explicitly). -/
def Img.putPixel (img : Img) (x y : Nat) (c : Rgba) : Img :=
  { img with pix := fun px py => if px = x ∧ py = y then c else img.pix px py }

/-- Region copy, as `GenericImage::copy_from(other, x, y)`: succeeds iff the
other image fits, overwriting the rectangle at `(x, y)` of its size. -/
def Img.copyFrom (img other : Img) (x y : Nat) : Option Img :=
  if other.width + x ≤ img.width ∧ other.height + y ≤ img.height then
    some { img with pix := fun px py =>
      if x ≤ px ∧ px < x + other.width ∧ y ≤ py ∧ py < y + other.height
        then other.pix (px - x) (py - y)
        else img.pix px py }
  else none

/-- Compression mode, as the Rust `enum CompressionType`. -/
inductive CompressionType where
  | None
  | Bytewise
  | Wordwise
deriving DecidableEq, Repr

/-- Pixel encoding, as the Rust `enum PixelDataType`. -/
inductive PixelDataType where
  | Bpp (bpp : Nat)
  | Direct
deriving DecidableEq, Repr

/-- Per-image descriptor, as the Rust `struct ImageDef`. -/
structure ImageDef where
  data_length : Nat
  has_transparency : Bool
  is_encrypted : Bool
  compression : CompressionType
  pixel_data_type : PixelDataType
  num_sprites : Nat
  sprite_width_px : Nat
  sprite_height_px : Nat
  offset_x : Int
  offset_y : Int
  image_width : Nat
  image_height : Nat
  num_palettes : Nat
  transparent_color_index : Nat
  palette_data_offset : Nat
  pixel_data_offset : Nat
  num_subimages : Nat
deriving DecidableEq, Repr

/-- Read a `u32` little-endian from the front of a byte buffer, as
`bytes::Buf::get_u32_le`; `none` models the crate's panic when fewer
than 4 bytes remain. -/
def readU32LE : List Nat → Option (Nat × List Nat)
  | b0 :: b1 :: b2 :: b3 :: rest =>
    some (b0 % 256 + 256 * (b1 % 256) + 65536 * (b2 % 256) + 16777216 * (b3 % 256), rest)
  | _ => none

/-- Read a `u32` big-endian from the front of a byte buffer, as
`bytes::Buf::get_u32`; `none` models the panic when fewer than 4 bytes remain. -/
def readU32BE : List Nat → Option (Nat × List Nat)
  | b0 :: b1 :: b2 :: b3 :: rest =>
    some (16777216 * (b0 % 256) + 65536 * (b1 % 256) + 256 * (b2 % 256) + b3 % 256, rest)
  | _ => none

/-- Little-endian bytes of a `u32` value, as `u32::to_le_bytes`. -/
def u32ToLeBytes (v : Nat) : List Nat :=
  [v % 256, v / 256 % 256, v / 65536 % 256, v / 16777216 % 256]

/-- XOR de-obfuscation, as `decrypt_pixel_data`: every byte XORed with `0x53`. -/
def decrypt_pixel_data (data : List Nat) : List Nat :=
  data.map (fun byte => byte ^^^ 0x53)

/-- RGB565 to RGBA conversion, as `parse_rgb565`.  The input is a `u16`
(`% 65536` makes the width explicit); the `as u8` casts are `% 256`. -/
def parse_rgb565 (value : Nat) : Rgba :=
  let v := value % 65536
  let r := (v >>> 11) * 255 / 31
  let g := ((v >>> 5) &&& 0b111111) * 255 / 63
  let b := (v &&& 0b11111) * 255 / 31
  ⟨r % 256, g % 256, b % 256, 255⟩

/-- The claim's property C5: double application of the XOR transform is the
identity on every byte sequence. -/
theorem decrypt_involution (x : List Nat) :
    decrypt_pixel_data (decrypt_pixel_data x) = x := by
  simp only [decrypt_pixel_data, List.map_map]
  have h : ∀ b : Nat, (b ^^^ 0x53) ^^^ 0x53 = b := by
    intro b
    rw [Nat.xor_assoc, Nat.xor_self, Nat.xor_zero]
  calc x.map ((fun byte => byte ^^^ 0x53) ∘ fun byte => byte ^^^ 0x53)
      = x.map id := by
        apply List.map_congr_left
        intro b _
        simpa using h b
    _ = x := List.map_id x

/-- The claim's property C6: the RGB565 conversion rescales the 5-bit red,
6-bit green and 5-bit blue fields by `channel * 255 / max`, every channel
lands in `[0, 255]`, alpha is fixed at 255, and the two extreme inputs map to
black and white. -/
theorem parse_rgb565_spec (value : Nat) :
    (parse_rgb565 value).r = value % 65536 / 2048 * 255 / 31 ∧
    (parse_rgb565 value).g = value % 65536 / 32 % 64 * 255 / 63 ∧
    (parse_rgb565 value).b = value % 65536 % 32 * 255 / 31 ∧
    (parse_rgb565 value).r ≤ 255 ∧ (parse_rgb565 value).g ≤ 255 ∧
    (parse_rgb565 value).b ≤ 255 ∧ (parse_rgb565 value).a = 255 ∧
    parse_rgb565 0 = ⟨0, 0, 0, 255⟩ ∧ parse_rgb565 65535 = ⟨255, 255, 255, 255⟩ := by
  have h11 : (value % 65536) >>> 11 = value % 65536 / 2048 := by
    rw [Nat.shiftRight_eq_div_pow]
  have h5 : (value % 65536) >>> 5 = value % 65536 / 32 := by
    rw [Nat.shiftRight_eq_div_pow]
  have h6 : (value % 65536 / 32) &&& 63 = value % 65536 / 32 % 64 :=
    Nat.and_pow_two_sub_one_eq_mod _ 6
  have h5b : (value % 65536) &&& 31 = value % 65536 % 32 :=
    Nat.and_pow_two_sub_one_eq_mod _ 5
  have hv : value % 65536 < 65536 := Nat.mod_lt _ (by norm_num)
  simp only [parse_rgb565, h11, h5, h6, h5b]
  refine ⟨by omega, by omega, by omega, by omega, by omega, by omega, trivial, by decide, by decide⟩

/-- Offset-table loop of `main`: keeps reading 4-byte little-endian offsets
while the running byte position is below the declared table length.  `none`
models the `bytes` crate panic when a read needs more bytes than remain; the
Rust `main` has no error-return path for this loop. -/
def readOffsetsLoop (buf : List Nat) (current first : Nat) : Option (List Nat) :=
  if current < first then
    match readU32LE buf with
    | none => none
    | some (v, rest) => (readOffsetsLoop rest (current + 4) first).map (fun l => v :: l)
  else some []
termination_by first - current
decreasing_by simp_wf; omega

/-- Container reader of `main`: the first 4-byte little-endian value is both
the first image offset and the byte length of the offset table. -/
def readImageOffsets (buf : List Nat) : Option (List Nat) :=
  match readU32LE buf with
  | none => none
  | some (first, rest) => (readOffsetsLoop rest 4 first).map (fun l => first :: l)

/-- Helper: the offset loop hits a short read (panic) whenever the bytes that
remain cannot cover the declared table length. -/
theorem readOffsetsLoop_overrun :
    ∀ d buf current first, first - current = d → current + buf.length < first →
      readOffsetsLoop buf current first = none := by
  intro d
  induction d using Nat.strong_induction_on with
  | _ d ih =>
    intro buf current first hd hlt
    have hcf : current < first := by omega
    rw [readOffsetsLoop]
    simp only [hcf, if_true]
    match buf with
    | [] => rfl
    | [b0] => rfl
    | [b0, b1] => rfl
    | [b0, b1, b2] => rfl
    | b0 :: b1 :: b2 :: b3 :: rest =>
      simp only [readU32LE]
      have hrec : readOffsetsLoop rest (current + 4) first = none := by
        refine ih (first - (current + 4)) (by omega) rest (current + 4) first rfl ?_
        simp only [List.length_cons] at hlt
        omega
      rw [hrec]
      rfl

/-- C1 counterexample: on the concrete buffer `[8, 0, 0, 0]` the declared
table length (8) exceeds the buffer size (4), and the container reader
panics — the embedded reader yields `none`, so it neither returns a
TruncatedInput error value nor a (truncated) offset list. -/
theorem c1_counterexample : readImageOffsets [8, 0, 0, 0] = none := by
  rw [readImageOffsets]
  simp only [readU32LE]
  rw [readOffsetsLoop]
  norm_num [readU32LE]

/-- C1 (amended): whenever the declared offset-table length (the first 4-byte
little-endian value) exceeds the buffer's size, the container reader panics
(the embedding yields `none`): it does not silently truncate the offset list,
but neither does it return a TruncatedInput error — `main` has no error value
for this condition. -/
theorem container_overrun_panics (buf : List Nat) (first : Nat) (rest : List Nat)
    (hread : readU32LE buf = some (first, rest)) (hlen : buf.length < first) :
    readImageOffsets buf = none := by
  simp only [readImageOffsets, hread]
  have hlenr : buf.length = rest.length + 4 := by
    match buf, hread with
    | b0 :: b1 :: b2 :: b3 :: rest', h =>
      simp only [readU32LE, Option.some.injEq, Prod.mk.injEq] at h
      simp [← h.2]
  rw [readOffsetsLoop_overrun (first - 4) rest 4 first rfl (by omega)]
  rfl

/-- C1 witness for the amended theorem: a concrete buffer of 6 bytes whose
declared table length is 100. -/
theorem container_overrun_panics_witness :
    readU32LE [100, 0, 0, 0, 1, 2] = some (100, [1, 2]) ∧
    ([100, 0, 0, 0, 1, 2] : List Nat).length < 100 ∧
    readImageOffsets [100, 0, 0, 0, 1, 2] = none :=
  ⟨by decide, by decide,
    container_overrun_panics [100, 0, 0, 0, 1, 2] 100 [1, 2] (by decide) (by decide)⟩

/-- Bytewise RLE decoder, as `decompress_bytewise`.  A control byte's top bit
selects a literal run (copy the next `n` raw bytes) or a repeat run (read one
byte and emit it `n` times), `n` being the low 7 bits; a run whose guard
fails (not enough bytes remain) consumes only the control byte.  Every read
is guarded in the source, so the function is total. -/
def decompress_bytewise : List Nat → List Nat
  | [] => []
  | control :: rest =>
    let c := control % 256
    let top_bit := c >>> 7
    let n := c &&& 0x7f
    if top_bit = 1 then
      if n ≤ rest.length then rest.take n ++ decompress_bytewise (rest.drop n)
      else decompress_bytewise rest
    else
      match rest with
      | value :: rest' => List.replicate n value ++ decompress_bytewise rest'
      | [] => []
termination_by l => l.length
decreasing_by
  all_goals simp_wf
  · exact Nat.lt_succ_of_le (Nat.sub_le _ _)
  · omega

/-- The claim's property C3: the bytewise decompressor consumes a one-byte
control, copies `n = low 7 bits` raw bytes verbatim when the high bit is set,
emits one byte `n` times when the high bit is clear, stops on exhausted
input, and skips a trailing control that declares more bytes than remain
rather than reading past the buffer. -/
theorem bytewise_rle_spec (control : Nat) (rest : List Nat) (hc : control < 256) :
    decompress_bytewise [] = [] ∧
    (control >>> 7 = 1 → control &&& 127 ≤ rest.length →
      decompress_bytewise (control :: rest) =
        rest.take (control &&& 127) ++ decompress_bytewise (rest.drop (control &&& 127))) ∧
    (control >>> 7 = 1 → rest.length < control &&& 127 →
      decompress_bytewise (control :: rest) = decompress_bytewise rest) ∧
    (∀ value rest', control >>> 7 = 0 → rest = value :: rest' →
      decompress_bytewise (control :: rest) =
        List.replicate (control &&& 127) value ++ decompress_bytewise rest') ∧
    (control >>> 7 = 0 → decompress_bytewise [control] = []) := by
  have hmod : control % 256 = control := Nat.mod_eq_of_lt hc
  refine ⟨by simp [decompress_bytewise], ?_, ?_, ?_, ?_⟩
  · intro htop hlen
    rw [decompress_bytewise.eq_def]
    simp only [hmod, htop, if_pos rfl, if_pos hlen, if_true]
  · intro htop hlen
    rw [decompress_bytewise.eq_def]
    simp only [hmod, htop, if_pos rfl, if_neg (Nat.not_le.mpr hlen), if_true]
  · intro value rest' htop hrest
    subst hrest
    rw [decompress_bytewise.eq_def]
    simp only [hmod, htop]
    norm_num
  · intro htop
    rw [decompress_bytewise.eq_def]
    simp only [hmod, htop]
    norm_num

/-- C3 witness: the theorem instantiated at the control byte `0x85` and a
short remaining buffer. -/
theorem bytewise_rle_spec_witness :
    (133 : Nat) < 256 ∧
    ((133 : Nat) >>> 7 = 1 → ([7, 9] : List Nat).length < 133 &&& 127 →
      decompress_bytewise [133, 7, 9] = decompress_bytewise [7, 9]) :=
  ⟨by decide, (bytewise_rle_spec 133 [7, 9] (by decide)).2.2.1⟩

/-- One literal run of the wordwise decoder, as the `for` loop in
`decompress_wordwise`: each of the `n` groups is read with the big-endian
`get_u32` and emitted as that value's `to_le_bytes`; `none` models the panic
when a group is cut short. -/
def wordwiseGroups : Nat → List Nat → Option (List Nat × List Nat)
  | 0, buf => some ([], buf)
  | n + 1, buf =>
    match readU32BE buf with
    | none => none
    | some (value, rest) =>
      match wordwiseGroups n rest with
      | none => none
      | some (out, rest') => some (u32ToLeBytes value ++ out, rest')

/-- Fuel-indexed body of `decompress_wordwise`.  The loop runs while at least
one byte remains and consumes at least four bytes per iteration, so fuel
equal to the buffer length is enough; `none` models the `bytes` crate panics
on short reads. -/
def decompressWordwiseAux : Nat → List Nat → Option (List Nat)
  | _, [] => some []
  | 0, _ :: _ => none
  | fuel + 1, buf =>
    match readU32LE buf with
    | none => none
    | some (control, rest) =>
      let top_bit := control >>> 31
      let n := control &&& 0x0fffffff
      if top_bit > 0 then
        match wordwiseGroups n rest with
        | none => none
        | some (out, rest') => (decompressWordwiseAux fuel rest').map (fun tail => out ++ tail)
      else
        match readU32BE rest with
        | none => none
        | some (value, rest') =>
          (decompressWordwiseAux fuel rest').map
            (fun tail => (List.replicate n (u32ToLeBytes value)).flatten ++ tail)

/-- Wordwise RLE decoder, as `decompress_wordwise`. -/
def decompress_wordwise (bytes : List Nat) : Option (List Nat) :=
  decompressWordwiseAux bytes.length bytes

/-- Modelled from the claim's words for C2: literal runs copy each 4-byte
group verbatim, preserving the group's byte order, and a repeat run emits the
one 4-byte group as its raw bytes `n` times.  Used only for comparison with
the embedded decoder. -/
def wordwiseClaimGroups : Nat → List Nat → Option (List Nat × List Nat)
  | 0, buf => some ([], buf)
  | n + 1, b0 :: b1 :: b2 :: b3 :: rest =>
    match wordwiseClaimGroups n rest with
    | none => none
    | some (out, rest') => some (b0 :: b1 :: b2 :: b3 :: out, rest')
  | _ + 1, _ => none

/-- Modelled from the claim's words for C2, fuel-indexed body; control-word
handling matches the embedded decoder, group emission is verbatim. -/
def wordwiseClaimAux : Nat → List Nat → Option (List Nat)
  | _, [] => some []
  | 0, _ :: _ => none
  | fuel + 1, buf =>
    match readU32LE buf with
    | none => none
    | some (control, rest) =>
      let top_bit := control >>> 31
      let n := control &&& 0x0fffffff
      if top_bit > 0 then
        match wordwiseClaimGroups n rest with
        | none => none
        | some (out, rest') => (wordwiseClaimAux fuel rest').map (fun tail => out ++ tail)
      else
        match rest with
        | b0 :: b1 :: b2 :: b3 :: rest' =>
          (wordwiseClaimAux fuel rest').map
            (fun tail => (List.replicate n ([b0, b1, b2, b3] : List Nat)).flatten ++ tail)
        | _ => none

/-- The C2 claim's decompressor, built from the claim's own words. -/
def wordwiseClaim (bytes : List Nat) : Option (List Nat) :=
  wordwiseClaimAux bytes.length bytes

/-- Amended model for C2: as the claim, except that every emitted 4-byte
group is byte-reversed (the code reads groups big-endian and emits the
value's little-endian bytes). -/
def wordwiseRevGroups : Nat → List Nat → Option (List Nat × List Nat)
  | 0, buf => some ([], buf)
  | n + 1, b0 :: b1 :: b2 :: b3 :: rest =>
    match wordwiseRevGroups n rest with
    | none => none
    | some (out, rest') =>
      some (b3 % 256 :: b2 % 256 :: b1 % 256 :: b0 % 256 :: out, rest')
  | _ + 1, _ => none

/-- Amended model for C2, fuel-indexed body: byte-reversed group emission. -/
def wordwiseRevAux : Nat → List Nat → Option (List Nat)
  | _, [] => some []
  | 0, _ :: _ => none
  | fuel + 1, buf =>
    match readU32LE buf with
    | none => none
    | some (control, rest) =>
      let top_bit := control >>> 31
      let n := control &&& 0x0fffffff
      if top_bit > 0 then
        match wordwiseRevGroups n rest with
        | none => none
        | some (out, rest') => (wordwiseRevAux fuel rest').map (fun tail => out ++ tail)
      else
        match rest with
        | b0 :: b1 :: b2 :: b3 :: rest' =>
          (wordwiseRevAux fuel rest').map
            (fun tail =>
              (List.replicate n ([b3 % 256, b2 % 256, b1 % 256, b0 % 256] : List Nat)).flatten ++ tail)
        | _ => none

/-- The amended C2 decompressor: wordwise RLE with byte-reversed groups. -/
def wordwiseRev (bytes : List Nat) : Option (List Nat) :=
  wordwiseRevAux bytes.length bytes

/-- Helper: the little-endian bytes of a value assembled big-endian from four
bytes are those bytes reversed. -/
theorem u32ToLeBytes_be (b0 b1 b2 b3 : Nat) :
    u32ToLeBytes (16777216 * (b0 % 256) + 65536 * (b1 % 256) + 256 * (b2 % 256) + b3 % 256) =
      [b3 % 256, b2 % 256, b1 % 256, b0 % 256] := by
  have h0 : b0 % 256 < 256 := Nat.mod_lt _ (by norm_num)
  have h1 : b1 % 256 < 256 := Nat.mod_lt _ (by norm_num)
  have h2 : b2 % 256 < 256 := Nat.mod_lt _ (by norm_num)
  have h3 : b3 % 256 < 256 := Nat.mod_lt _ (by norm_num)
  simp only [u32ToLeBytes, List.cons.injEq, and_true]
  refine ⟨by omega, by omega, by omega, by omega⟩

/-- Helper: the source's literal-run loop equals the byte-reversing model. -/
theorem wordwiseGroups_eq_rev (n : Nat) :
    ∀ buf, wordwiseGroups n buf = wordwiseRevGroups n buf := by
  induction n with
  | zero => intro buf; rfl
  | succ n ih =>
    intro buf
    match buf with
    | [] => rfl
    | [b0] => rfl
    | [b0, b1] => rfl
    | [b0, b1, b2] => rfl
    | b0 :: b1 :: b2 :: b3 :: rest =>
      simp only [wordwiseGroups, wordwiseRevGroups, readU32BE, ih rest, u32ToLeBytes_be]
      match wordwiseRevGroups n rest with
      | none => rfl
      | some (out, rest') => rfl

/-- Helper: the embedded wordwise decoder equals the amended (byte-reversing)
model at every fuel. -/
theorem decompressWordwiseAux_eq_rev (fuel : Nat) :
    ∀ buf, decompressWordwiseAux fuel buf = wordwiseRevAux fuel buf := by
  induction fuel with
  | zero =>
    intro buf
    match buf with
    | [] => rfl
    | _ :: _ => rfl
  | succ fuel ih =>
    intro buf
    match buf with
    | [] => rfl
    | [b0] => rfl
    | [b0, b1] => rfl
    | [b0, b1, b2] => rfl
    | b0 :: b1 :: b2 :: b3 :: rest =>
      simp only [decompressWordwiseAux, wordwiseRevAux, readU32LE]
      by_cases htop :
          (b0 % 256 + 256 * (b1 % 256) + 65536 * (b2 % 256) + 16777216 * (b3 % 256)) >>> 31 > 0
      · simp only [htop, if_pos, wordwiseGroups_eq_rev]
        match wordwiseRevGroups
            ((b0 % 256 + 256 * (b1 % 256) + 65536 * (b2 % 256) + 16777216 * (b3 % 256)) &&&
              0x0fffffff) rest with
        | none => rfl
        | some (out, rest') => simp only [ih rest']
      · simp only [htop, if_neg, if_false]
        match rest with
        | [] => rfl
        | [c0] => rfl
        | [c0, c1] => rfl
        | [c0, c1, c2] => rfl
        | c0 :: c1 :: c2 :: c3 :: rest' =>
          simp only [readU32BE, u32ToLeBytes_be, ih rest']

/-- C2 counterexample: on a single literal-run input (`control 0x80000001`
followed by the group `[1, 2, 3, 4]`), the embedded decoder emits the group
byte-reversed, not verbatim as the claim states. -/
theorem c2_counterexample :
    decompress_wordwise [1, 0, 0, 128, 1, 2, 3, 4] = some [4, 3, 2, 1] ∧
    wordwiseClaim [1, 0, 0, 128, 1, 2, 3, 4] = some [1, 2, 3, 4] ∧
    decompress_wordwise [1, 0, 0, 128, 1, 2, 3, 4] ≠
      wordwiseClaim [1, 0, 0, 128, 1, 2, 3, 4] := by
  refine ⟨by decide, by decide, by decide⟩

/-- C2 (amended): the wordwise decompressor repeatedly reads a 4-byte
little-endian control word; top bit set copies the next `n` four-byte groups
with each group's bytes reversed, top bit clear reads one 4-byte group and
emits its reversed bytes `n` times, `n` being the low 28 bits. -/
theorem wordwise_eq_reversed_model (bytes : List Nat) :
    decompress_wordwise bytes = wordwiseRev bytes :=
  decompressWordwiseAux_eq_rev bytes.length bytes

/-- Sign-interpretation of one byte as an `i8`, as `bytes::Buf::get_i8`. -/
def readI8 (b : Nat) : Int :=
  if b % 256 < 128 then (b % 256 : Int) else (b % 256 : Int) - 256

/-- Descriptor parser, as `read_image_def`: reads the fixed 24-byte header in
order (u32 length; u8 flags; u8 pixel-format selector; u16 sprite count;
u8 sprite width/height; i8 x/y offsets; u8 grid width/height; u8 reserved;
u8 palette count; u16 transparent index; u16 palette offset; u16 pixel
offset; u16 padding).  `none` models the `bytes` crate panic on a short
buffer and the Rust division-by-zero panic when the subimage grid is empty. -/
def read_image_def (bytes : List Nat) : Option ImageDef :=
  match bytes with
  | dl0 :: dl1 :: dl2 :: dl3 :: flags :: pdt :: ns0 :: ns1 :: sw :: sh :: ox :: oy ::
      iw :: ih :: _unknown :: np :: tc0 :: tc1 :: po0 :: po1 :: pxo0 :: pxo1 ::
      _pad0 :: _pad1 :: _rest =>
    let f := flags % 256
    let compression :=
      if f &&& 0b00100000 > 0 then CompressionType.Bytewise
      else if f &&& 0b01000000 > 0 then CompressionType.Wordwise
      else CompressionType.None
    let pixel_data_type :=
      match pdt % 256 with
      | 0 => PixelDataType.Bpp 1
      | 1 => PixelDataType.Bpp 2
      | 2 => PixelDataType.Bpp 4
      | 3 => PixelDataType.Bpp 8
      | _ => PixelDataType.Direct
    let num_sprites := ns0 % 256 + 256 * (ns1 % 256)
    let image_width := iw % 256
    let image_height := ih % 256
    if image_width * image_height = 0 then none
    else some
      { data_length :=
          dl0 % 256 + 256 * (dl1 % 256) + 65536 * (dl2 % 256) + 16777216 * (dl3 % 256)
        has_transparency := decide (f &&& 0b00000100 > 0)
        is_encrypted := decide (f &&& 0b10000000 > 0)
        compression := compression
        pixel_data_type := pixel_data_type
        num_sprites := num_sprites
        sprite_width_px := sw % 256
        sprite_height_px := sh % 256
        offset_x := readI8 ox
        offset_y := readI8 oy
        image_width := image_width
        image_height := image_height
        num_palettes := np % 256
        transparent_color_index := tc0 % 256 + 256 * (tc1 % 256)
        palette_data_offset := po0 % 256 + 256 * (po1 % 256)
        pixel_data_offset := pxo0 % 256 + 256 * (pxo1 % 256)
        num_subimages := num_sprites / (image_width * image_height) }
  | _ => none

/-- The claim's property C10: flag parsing is total with a fixed priority —
on any well-formed 24-byte header the parser succeeds and yields exactly the
compression mode given by testing bit `0x20` (bytewise) before bit `0x40`
(wordwise); in particular both bits set selects bytewise. -/
theorem flag_byte_compression
    (dl0 dl1 dl2 dl3 flags pdt ns0 ns1 sw sh ox oy iw ih unk np tc0 tc1 po0 po1
      pxo0 pxo1 pd0 pd1 : Nat) (rest : List Nat)
    (hgrid : iw % 256 * (ih % 256) ≠ 0) :
    ∃ idef,
      read_image_def (dl0 :: dl1 :: dl2 :: dl3 :: flags :: pdt :: ns0 :: ns1 :: sw :: sh ::
          ox :: oy :: iw :: ih :: unk :: np :: tc0 :: tc1 :: po0 :: po1 :: pxo0 :: pxo1 ::
          pd0 :: pd1 :: rest) = some idef ∧
      idef.compression =
        (if flags % 256 &&& 32 > 0 then CompressionType.Bytewise
         else if flags % 256 &&& 64 > 0 then CompressionType.Wordwise
         else CompressionType.None) ∧
      (flags % 256 &&& 32 > 0 → flags % 256 &&& 64 > 0 →
        idef.compression = CompressionType.Bytewise) := by
  simp only [read_image_def, if_neg hgrid]
  refine ⟨_, rfl, rfl, ?_⟩
  intro h32 _
  simp only [if_pos h32]

/-- C10 witness: a concrete header whose flag byte `0x60` has both
compression bits set; the parser succeeds and selects bytewise. -/
theorem flag_byte_compression_witness :
    (1 : Nat) % 256 * (1 % 256) ≠ 0 ∧
    ∃ idef,
      read_image_def [0, 0, 0, 0, 96, 0, 0, 0, 1, 1, 0, 0, 1, 1, 17, 1, 0, 0, 0, 0,
        0, 0, 0, 0] = some idef ∧
      idef.compression =
        (if (96 : Nat) % 256 &&& 32 > 0 then CompressionType.Bytewise
         else if 96 % 256 &&& 64 > 0 then CompressionType.Wordwise
         else CompressionType.None) ∧
      ((96 : Nat) % 256 &&& 32 > 0 → (96 : Nat) % 256 &&& 64 > 0 →
        idef.compression = CompressionType.Bytewise) :=
  ⟨by decide,
    flag_byte_compression 0 0 0 0 96 0 0 0 1 1 0 0 1 1 17 1 0 0 0 0 0 0 0 0 []
      (by decide)⟩

/-- Per-sprite byte span of uncompressed pixel data, the `bytes_per_sprite`
computation in `get_uncompressed_pixel_data`. -/
def bytes_per_sprite (idef : ImageDef) : Nat :=
  match idef.pixel_data_type with
  | PixelDataType.Bpp bpp =>
    let bits_per_sprite := idef.sprite_width_px * idef.sprite_height_px * bpp
    if bits_per_sprite % 8 = 0 then bits_per_sprite / 8 else bits_per_sprite / 8 + 1
  | PixelDataType.Direct => idef.sprite_width_px * idef.sprite_height_px * 2

/-- The slicing loop of `get_uncompressed_pixel_data`: for `count` sprites
starting at sprite index `j`, slice `data[bps*j .. bps*j + bps]`, decrypting
when flagged; `none` models the Rust panic when a slice exceeds the buffer. -/
def sliceSprites (data : List Nat) (enc : Bool) (bps : Nat) :
    Nat → Nat → Option (List (List Nat))
  | _, 0 => some []
  | j, count + 1 =>
    if bps * j + bps ≤ data.length then
      let slice := (data.drop (bps * j)).take bps
      let payload := if enc then decrypt_pixel_data slice else slice
      (sliceSprites data enc bps (j + 1) count).map (fun l => payload :: l)
    else none

/-- Fixed-stride payload extraction, as `get_uncompressed_pixel_data`. -/
def get_uncompressed_pixel_data (data : List Nat) (idef : ImageDef) :
    Option (List (List Nat)) :=
  sliceSprites data idef.is_encrypted (bytes_per_sprite idef) 0 idef.num_sprites

/-- Offset/length-table extraction loop of `get_compressed_pixel_data`: per
sprite, two u32 little-endian reads (start offset, length) from the cursor,
then a slice of the same region; `none` models the Rust panics. -/
def getCompressedLoop (data : List Nat) (enc : Bool) :
    Nat → List Nat → Option (List (List Nat))
  | 0, _ => some []
  | count + 1, buf =>
    match readU32LE buf with
    | none => none
    | some (a, buf1) =>
      match readU32LE buf1 with
      | none => none
      | some (len, buf2) =>
        if a + len ≤ data.length then
          let slice := (data.drop a).take len
          let payload := if enc then decrypt_pixel_data slice else slice
          (getCompressedLoop data enc count buf2).map (fun l => payload :: l)
        else none

/-- Offset/length-table payload extraction, as `get_compressed_pixel_data`. -/
def get_compressed_pixel_data (data : List Nat) (idef : ImageDef) :
    Option (List (List Nat)) :=
  getCompressedLoop data idef.is_encrypted idef.num_sprites data

/-- Payload-extraction dispatch, as `get_pixel_data_per_sprite`. -/
def get_pixel_data_per_sprite (data : List Nat) (idef : ImageDef) :
    Option (List (List Nat)) :=
  match idef.compression with
  | CompressionType.None => get_uncompressed_pixel_data data idef
  | _ => get_compressed_pixel_data data idef

/-- Helper: full characterization of the fixed-stride slicing loop. -/
theorem sliceSprites_spec (data : List Nat) (enc : Bool) (bps : Nat) :
    ∀ count j, bps * (j + count) ≤ data.length →
      ∃ l, sliceSprites data enc bps j count = some l ∧ l.length = count ∧
        ∀ m, m < count →
          l.get? m = some ((fun s => if enc then decrypt_pixel_data s else s)
            ((data.drop (bps * (j + m))).take bps)) := by
  intro count
  induction count with
  | zero =>
    intro j _
    exact ⟨[], rfl, rfl, fun m hm => absurd hm (Nat.not_lt_zero m)⟩
  | succ count ih =>
    intro j hlen
    have hj1 : bps * ((j + 1) + count) ≤ data.length := by
      have : (j + 1) + count = j + (count + 1) := by omega
      rw [this]; exact hlen
    obtain ⟨l, hl, hlenl, hget⟩ := ih (j + 1) hj1
    have hguard : bps * j + bps ≤ data.length := by
      have h1 : bps * j + bps = bps * (j + 1) := by ring
      have h2 : bps * (j + 1) ≤ bps * (j + (count + 1)) :=
        Nat.mul_le_mul_left bps (by omega)
      omega
    refine ⟨(if enc then decrypt_pixel_data ((data.drop (bps * j)).take bps)
      else (data.drop (bps * j)).take bps) :: l, ?_, ?_, ?_⟩
    · simp only [sliceSprites, if_pos hguard, hl]
      rfl
    · simp [hlenl]
    · intro m hm
      match m with
      | 0 => simp
      | m + 1 =>
        simp only [List.get?_cons_succ]
        have := hget m (by omega)
        have harith : j + 1 + m = j + (m + 1) := by omega
        rw [harith] at this
        exact this

/-- The claim's property C8: with no compression, every sprite's payload is a
constant span — `ceil(w*h*bpp/8)` bytes for indexed formats, `w*h*2` for the
direct format — sprite `j`'s slice starts at byte `j * span` of the region,
and payloads come back in sprite order. -/
theorem uncompressed_payload_layout (data : List Nat) (idef : ImageDef)
    (hcomp : idef.compression = CompressionType.None)
    (hlen : bytes_per_sprite idef * idef.num_sprites ≤ data.length) :
    (∀ bpp, idef.pixel_data_type = PixelDataType.Bpp bpp →
      bytes_per_sprite idef = (idef.sprite_width_px * idef.sprite_height_px * bpp + 7) / 8) ∧
    (idef.pixel_data_type = PixelDataType.Direct →
      bytes_per_sprite idef = idef.sprite_width_px * idef.sprite_height_px * 2) ∧
    ∃ l, get_pixel_data_per_sprite data idef = some l ∧
      l.length = idef.num_sprites ∧
      ∀ j, j < idef.num_sprites →
        l.get? j = some ((fun s => if idef.is_encrypted then decrypt_pixel_data s else s)
          ((data.drop (bytes_per_sprite idef * j)).take (bytes_per_sprite idef))) := by
  refine ⟨?_, ?_, ?_⟩
  · intro bpp hbpp
    simp only [bytes_per_sprite, hbpp]
    split <;> omega
  · intro hdir
    simp only [bytes_per_sprite, hdir]
  · have hl0 : bytes_per_sprite idef * (0 + idef.num_sprites) ≤ data.length := by
      simpa using hlen
    obtain ⟨l, hl, hlenl, hget⟩ :=
      sliceSprites_spec data idef.is_encrypted (bytes_per_sprite idef) idef.num_sprites 0 hl0
    refine ⟨l, ?_, hlenl, ?_⟩
    · simp only [get_pixel_data_per_sprite, hcomp, get_uncompressed_pixel_data]
      exact hl
    · intro j hj
      simpa using hget j hj

/-- Sample descriptor for the C8 witness: uncompressed, 8 bpp, two 1×1
sprites. -/
def idefC8 : ImageDef :=
  { data_length := 0, has_transparency := false, is_encrypted := false
    compression := CompressionType.None, pixel_data_type := PixelDataType.Bpp 8
    num_sprites := 2, sprite_width_px := 1, sprite_height_px := 1
    offset_x := 0, offset_y := 0, image_width := 1, image_height := 1
    num_palettes := 1, transparent_color_index := 0, palette_data_offset := 0
    pixel_data_offset := 0, num_subimages := 2 }

/-- C8 witness: the layout theorem instantiated on a 2-byte region holding
two 1-byte sprites. -/
theorem uncompressed_payload_layout_witness :
    idefC8.compression = CompressionType.None ∧
    bytes_per_sprite idefC8 * idefC8.num_sprites ≤ ([10, 20] : List Nat).length ∧
    ((∀ bpp, idefC8.pixel_data_type = PixelDataType.Bpp bpp →
      bytes_per_sprite idefC8 =
        (idefC8.sprite_width_px * idefC8.sprite_height_px * bpp + 7) / 8) ∧
    (idefC8.pixel_data_type = PixelDataType.Direct →
      bytes_per_sprite idefC8 = idefC8.sprite_width_px * idefC8.sprite_height_px * 2) ∧
    ∃ l, get_pixel_data_per_sprite [10, 20] idefC8 = some l ∧
      l.length = idefC8.num_sprites ∧
      ∀ j, j < idefC8.num_sprites →
        l.get? j = some ((fun s => if idefC8.is_encrypted then decrypt_pixel_data s else s)
          ((([10, 20] : List Nat).drop (bytes_per_sprite idefC8 * j)).take
            (bytes_per_sprite idefC8)))) :=
  ⟨by decide, by decide,
    uncompressed_payload_layout [10, 20] idefC8 (by decide) (by decide)⟩

/-- Expand a byte into its 8 bits, least significant first, as `byte_to_bits`. -/
def byte_to_bits (byte : Nat) : List Nat :=
  [(byte >>> 0) &&& 1, (byte >>> 1) &&& 1, (byte >>> 2) &&& 1, (byte >>> 3) &&& 1,
    (byte >>> 4) &&& 1, (byte >>> 5) &&& 1, (byte >>> 6) &&& 1, (byte >>> 7) &&& 1]

/-- Fold of `bits_to_byte`: OR each bit in at its position. -/
def bitsToByteAux : Nat → Nat → List Nat → Nat
  | _, byte, [] => byte
  | i, byte, bit :: rest => bitsToByteAux (i + 1) (byte ||| (bit <<< i)) rest

/-- Reassemble bits (least significant first) into a value, as `bits_to_byte`. -/
def bits_to_byte (bits : List Nat) : Nat := bitsToByteAux 0 0 bits

/-- Consecutive chunks of `n` elements (the Rust `slice::chunks`), fuel-indexed
so that concrete instances reduce; the fuel argument is the list length. -/
def chunksOfAux {α : Type} (n : Nat) : Nat → List α → List (List α)
  | _, [] => []
  | 0, _ :: _ => []
  | fuel + 1, a :: l => (a :: l.take (n - 1)) :: chunksOfAux n fuel (l.drop (n - 1))

/-- Chunks of `n` elements, as `bits.chunks(bpp)` (callers never pass 0). -/
def chunksOf {α : Type} (n : Nat) (l : List α) : List (List α) :=
  chunksOfAux n l.length l

/-- Per-pixel color selection of `make_indexed_sprite`: the transparency test
comes first, then the palette lookup; `none` models the `expect` panic on an
out-of-range palette index. -/
def indexedPixelColor (idef : ImageDef) (palette : List Rgba) (index : Nat) : Option Rgba :=
  if idef.has_transparency ∧ index = idef.transparent_color_index then some ⟨0, 0, 0, 0⟩
  else palette.get? index

/-- Chunk-drawing loop of `make_indexed_sprite` over the enumerated chunks;
`none` models the Rust panics (`i % 0` on a zero sprite width, `expect` on a
bad palette index).  The color is computed before the bounds guard, and the
guard drops out-of-bounds chunks without drawing, exactly as the source. -/
def drawChunks (idef : ImageDef) (palette : List Rgba) :
    List (Nat × List Nat) → Img → Option Img
  | [], img => some img
  | (i, chunk) :: rest, img =>
    if idef.sprite_width_px = 0 then none
    else
      let x := i % idef.sprite_width_px
      let y := i / idef.sprite_width_px
      match indexedPixelColor idef palette (bits_to_byte chunk) with
      | none => none
      | some color =>
        drawChunks idef palette rest
          (if x < idef.sprite_width_px ∧ y < idef.sprite_height_px
            then img.putPixel x y color else img)

/-- Indexed-path rasterizer, as `make_indexed_sprite`.  The source's warning
`println!` on a chunk-count mismatch has no semantic effect and is omitted;
`bits.chunks(0)` would panic in Rust, modelled by the `bpp = 0` guard. -/
def make_indexed_sprite (bytes : List Nat) (idef : ImageDef) (bpp : Nat)
    (palette : List Rgba) : Option Img :=
  if bpp = 0 then none
  else
    let bits := (bytes.map byte_to_bits).flatten
    let chunks := chunksOf bpp bits
    drawChunks idef palette chunks.enum
      (newImg idef.sprite_width_px idef.sprite_height_px)

/-- Per-pixel color of `make_direct_sprite`: parse RGB565, then override with
fully transparent when the raw 16-bit sample equals the transparent index. -/
def directPixelColor (idef : ImageDef) (value : Nat) : Rgba :=
  if idef.has_transparency ∧ idef.transparent_color_index = value then ⟨0, 0, 0, 0⟩
  else parse_rgb565 value

/-- Body of the `make_direct_sprite` loop.  The source's loop condition tests
the length of the original slice (`bytes.remaining()`), which never changes,
so once the cursor holds fewer than two bytes the next `get_u16_le` panics;
`put_pixel` panics when the pixel index leaves the image and `i % 0` panics
for a zero sprite width — all modelled as `none`. -/
def drawDirect (idef : ImageDef) : Nat → List Nat → Img → Option Img
  | i, b0 :: b1 :: rest, img =>
    if idef.sprite_width_px = 0 then none
    else
      let x := i % idef.sprite_width_px
      let y := i / idef.sprite_width_px
      let value := b0 % 256 + 256 * (b1 % 256)
      let color := directPixelColor idef value
      if x < img.width ∧ y < img.height then
        drawDirect idef (i + 1) rest (img.putPixel x y color)
      else none
  | _, _, _ => none

/-- Direct-path rasterizer, as `make_direct_sprite`: with fewer than two
bytes the loop never runs and a blank image is returned; otherwise the loop
runs until a panic (see `drawDirect`). -/
def make_direct_sprite (bytes : List Nat) (idef : ImageDef) : Option Img :=
  if bytes.length < 2 then some (newImg idef.sprite_width_px idef.sprite_height_px)
  else drawDirect idef 0 bytes (newImg idef.sprite_width_px idef.sprite_height_px)

/-- Helper: every entry of `enumFrom k` has index at least `k`. -/
theorem le_fst_of_mem_enumFrom {α : Type} :
    ∀ (l : List α) (k : Nat) (p : Nat × α), p ∈ l.enumFrom k → k ≤ p.1 := by
  intro l
  induction l with
  | nil => intro k p h; cases h
  | cons a l ih =>
    intro k p h
    simp only [List.enumFrom, List.mem_cons] at h
    rcases h with h | h
    · subst h; exact Nat.le_refl k
    · exact Nat.le_of_succ_le (ih (k + 1) p h)

/-- Helper: indices in `enumFrom` are strictly increasing. -/
theorem pairwise_fst_lt_enumFrom {α : Type} :
    ∀ (l : List α) (k : Nat), (l.enumFrom k).Pairwise (fun p q => p.1 < q.1) := by
  intro l
  induction l with
  | nil => intro k; exact List.Pairwise.nil
  | cons a l ih =>
    intro k
    simp only [List.enumFrom]
    exact List.Pairwise.cons
      (fun p hp => Nat.lt_of_succ_le (le_fst_of_mem_enumFrom l (k + 1) p hp)) (ih (k + 1))

/-- Helper: a `get?` hit at index `i` puts `(i, a)` into the enumeration. -/
theorem mem_enum_of_get? {α : Type} (l : List α) (i : Nat) (a : α)
    (h : l.get? i = some a) : (i, a) ∈ l.enum := by
  have h' : l.enum.get? i = some (i, a) := by
    rw [List.get?_eq_getElem?] at h ⊢
    show (l.enumFrom 0)[i]? = some (i, a)
    rw [List.getElem?_enumFrom]
    rw [h]
    simp
  exact List.get?_mem h'

/-- Helper: the drawing loop leaves untouched every pixel no listed chunk
maps to. -/
theorem drawChunks_untouched (idef : ImageDef) (palette : List Rgba) :
    ∀ (l : List (Nat × List Nat)) (img img' : Img) (x y : Nat),
      drawChunks idef palette l img = some img' →
      (∀ p, p ∈ l → ¬(p.1 % idef.sprite_width_px = x ∧ p.1 / idef.sprite_width_px = y)) →
      img'.pix x y = img.pix x y := by
  intro l
  induction l with
  | nil =>
    intro img img' x y hrun _
    simp only [drawChunks, Option.some.injEq] at hrun
    rw [← hrun]
  | cons p rest ih =>
    intro img img' x y hrun hmiss
    match p with
    | (i, chunk) =>
      rw [drawChunks] at hrun
      by_cases hw : idef.sprite_width_px = 0
      · rw [if_pos hw] at hrun; cases hrun
      · rw [if_neg hw] at hrun
        match hcolor : indexedPixelColor idef palette (bits_to_byte chunk) with
        | none => rw [hcolor] at hrun; cases hrun
        | some color =>
          rw [hcolor] at hrun
          have hnext := ih _ img' x y hrun (fun q hq => hmiss q (List.mem_cons_of_mem _ hq))
          rw [hnext]
          by_cases hguard : i % idef.sprite_width_px < idef.sprite_width_px ∧
              i / idef.sprite_width_px < idef.sprite_height_px
          · rw [if_pos hguard]
            have hne := hmiss (i, chunk) (List.mem_cons_self _ _)
            simp only [Img.putPixel]
            rw [if_neg]
            intro hcontra
            exact hne ⟨hcontra.1.symm, hcontra.2.symm⟩
          · rw [if_neg hguard]

/-- Helper: a successful drawing loop writes, at the position of each listed
in-bounds chunk, exactly the color the per-pixel rule selects. -/
theorem drawChunks_write (idef : ImageDef) (palette : List Rgba) :
    ∀ (l : List (Nat × List Nat)) (img img' : Img),
      drawChunks idef palette l img = some img' →
      l.Pairwise (fun p q => p.1 < q.1) →
      ∀ i chunk, (i, chunk) ∈ l →
        ∀ color, indexedPixelColor idef palette (bits_to_byte chunk) = some color →
          i / idef.sprite_width_px < idef.sprite_height_px →
          img'.pix (i % idef.sprite_width_px) (i / idef.sprite_width_px) = color := by
  intro l
  induction l with
  | nil =>
    intro img img' _ _ i chunk hmem
    cases hmem
  | cons p rest ih =>
    intro img img' hrun hpair i chunk hmem color hcolor hy
    match p with
    | (j, d) =>
      rw [drawChunks] at hrun
      by_cases hw : idef.sprite_width_px = 0
      · rw [if_pos hw] at hrun; cases hrun
      · rw [if_neg hw] at hrun
        match hcolor' : indexedPixelColor idef palette (bits_to_byte d) with
        | none => rw [hcolor'] at hrun; cases hrun
        | some color' =>
          rw [hcolor'] at hrun
          rcases List.mem_cons.mp hmem with hhead | htail
          · injection hhead with h1 h2
            subst h1
            subst h2
            have hcc : color' = color := Option.some.inj (hcolor'.symm.trans hcolor)
            subst hcc
            have hguard : i % idef.sprite_width_px < idef.sprite_width_px ∧
                i / idef.sprite_width_px < idef.sprite_height_px :=
              ⟨Nat.mod_lt _ (Nat.pos_of_ne_zero hw), hy⟩
            have hrun' : drawChunks idef palette rest
                (img.putPixel (i % idef.sprite_width_px) (i / idef.sprite_width_px) color') =
                some img' := by
              have h0 : drawChunks idef palette rest
                  (if i % idef.sprite_width_px < idef.sprite_width_px ∧
                      i / idef.sprite_width_px < idef.sprite_height_px
                    then img.putPixel (i % idef.sprite_width_px) (i / idef.sprite_width_px) color'
                    else img) = some img' := hrun
              rwa [if_pos hguard] at h0
            have hmiss : ∀ q, q ∈ rest →
                ¬(q.1 % idef.sprite_width_px = i % idef.sprite_width_px ∧
                  q.1 / idef.sprite_width_px = i / idef.sprite_width_px) := by
              intro q hq hqc
              obtain ⟨hqm, hqd⟩ := hqc
              have hlt : i < q.1 := (List.pairwise_cons.mp hpair).1 q hq
              have e1 : idef.sprite_width_px * (q.1 / idef.sprite_width_px) +
                  q.1 % idef.sprite_width_px = q.1 := Nat.div_add_mod q.1 _
              have e2 : idef.sprite_width_px * (i / idef.sprite_width_px) +
                  i % idef.sprite_width_px = i := Nat.div_add_mod i _
              rw [hqm, hqd] at e1
              have : q.1 = i := e1.symm.trans e2
              omega
            have := drawChunks_untouched idef palette rest _ img' _ _ hrun' hmiss
            rw [this]
            simp [Img.putPixel]
          · exact ih _ img' hrun (List.pairwise_cons.mp hpair).2 i chunk htail color hcolor hy

/-- The claim's property C4: in the indexed path, when transparency is
declared and a chunk's decoded palette index equals the transparent-color
index, the rasterized sprite holds exactly `(0,0,0,0)` at that chunk's pixel,
regardless of the palette; in the direct path, the per-pixel color emitted
for a raw sample equal to the transparent index is exactly `(0,0,0,0)`,
overriding the RGB565 decode. -/
theorem transparent_pixel_precedence :
    (∀ (bytes : List Nat) (idef : ImageDef) (bpp : Nat) (palette : List Rgba) (img : Img)
      (i : Nat) (chunk : List Nat),
      idef.has_transparency = true →
      (chunksOf bpp ((bytes.map byte_to_bits).flatten)).get? i = some chunk →
      bits_to_byte chunk = idef.transparent_color_index →
      i / idef.sprite_width_px < idef.sprite_height_px →
      make_indexed_sprite bytes idef bpp palette = some img →
      img.pix (i % idef.sprite_width_px) (i / idef.sprite_width_px) = ⟨0, 0, 0, 0⟩) ∧
    (∀ (idef : ImageDef) (value : Nat),
      idef.has_transparency = true →
      value = idef.transparent_color_index →
      directPixelColor idef value = ⟨0, 0, 0, 0⟩) := by
  constructor
  · intro bytes idef bpp palette img i chunk htr hchunk hidx hy hmk
    rw [make_indexed_sprite] at hmk
    by_cases hbpp : bpp = 0
    · rw [if_pos hbpp] at hmk; cases hmk
    · rw [if_neg hbpp] at hmk
      have hmem := mem_enum_of_get? _ i chunk hchunk
      have hcolor : indexedPixelColor idef palette (bits_to_byte chunk) = some ⟨0, 0, 0, 0⟩ := by
        rw [indexedPixelColor, if_pos ⟨by simp [htr], hidx⟩]
      exact drawChunks_write idef palette _ _ img hmk
        (pairwise_fst_lt_enumFrom _ 0) i chunk hmem ⟨0, 0, 0, 0⟩ hcolor hy
  · intro idef value htr hval
    rw [directPixelColor, if_pos ⟨by simp [htr], hval.symm⟩]

/-- Sample descriptor for the C4 witness: transparency on, transparent color
index 5, one 1×1 sprite at 8 bpp. -/
def idefC4 : ImageDef :=
  { data_length := 0, has_transparency := true, is_encrypted := false
    compression := CompressionType.None, pixel_data_type := PixelDataType.Bpp 8
    num_sprites := 1, sprite_width_px := 1, sprite_height_px := 1
    offset_x := 0, offset_y := 0, image_width := 1, image_height := 1
    num_palettes := 1, transparent_color_index := 5, palette_data_offset := 0
    pixel_data_offset := 0, num_subimages := 1 }

/-- C4 witness: the byte `5` decodes (at 8 bpp) to palette index 5, the
transparent index, so the rasterized pixel is fully transparent even though
the palette is empty; the direct-path rule likewise yields transparent. -/
theorem transparent_pixel_precedence_witness :
    ∃ img, make_indexed_sprite [5] idefC4 8 [] = some img ∧
      img.pix 0 0 = ⟨0, 0, 0, 0⟩ ∧ directPixelColor idefC4 5 = ⟨0, 0, 0, 0⟩ := by
  refine ⟨_, rfl, ?_, ?_⟩
  · exact transparent_pixel_precedence.1 [5] idefC4 8 [] _ 0 [1, 0, 1, 0, 0, 0, 0, 0]
      rfl (by decide) (by decide) (by decide) rfl
  · exact transparent_pixel_precedence.2 idefC4 5 rfl rfl

/-- Sprite-placement loop of `make_subimage` over the enumerated sprites:
sprite `i` is copied to `((i mod grid_w) * sprite_w, (i div grid_w) *
sprite_h)`.  `none` models the Rust panics (`i % 0` on a zero grid width and
the `expect` on a failed `copy_from`). -/
def placeSprites (idef : ImageDef) : List (Nat × Img) → Img → Option Img
  | [], img => some img
  | (i, sprite) :: rest, img =>
    if idef.image_width = 0 then none
    else
      let x := (i % idef.image_width) * idef.sprite_width_px
      let y := (i / idef.image_width) * idef.sprite_height_px
      match img.copyFrom sprite x y with
      | none => none
      | some img' => placeSprites idef rest img'

/-- Subimage composition, as `make_subimage`. -/
def make_subimage (sprites : List Img) (idef : ImageDef) : Option Img :=
  placeSprites idef sprites.enum
    (newImg (idef.sprite_width_px * idef.image_width)
      (idef.sprite_height_px * idef.image_height))

/-- Helper: a successful `copy_from` keeps the destination dimensions. -/
theorem copyFrom_dims {img other img' : Img} {x y : Nat}
    (h : img.copyFrom other x y = some img') :
    img'.width = img.width ∧ img'.height = img.height := by
  rw [Img.copyFrom] at h
  by_cases hfit : other.width + x ≤ img.width ∧ other.height + y ≤ img.height
  · rw [if_pos hfit] at h
    cases h
    exact ⟨rfl, rfl⟩
  · rw [if_neg hfit] at h; cases h

/-- Helper: a successful `copy_from` required the source to fit. -/
theorem copyFrom_fits {img other img' : Img} {x y : Nat}
    (h : img.copyFrom other x y = some img') :
    other.width + x ≤ img.width ∧ other.height + y ≤ img.height := by
  rw [Img.copyFrom] at h
  by_cases hfit : other.width + x ≤ img.width ∧ other.height + y ≤ img.height
  · exact hfit
  · rw [if_neg hfit] at h; cases h

/-- Helper: inside the copied rectangle, `copy_from` installs the source. -/
theorem copyFrom_pix_inside {img other img' : Img} {x y : Nat}
    (h : img.copyFrom other x y = some img') (px py : Nat)
    (hin : x ≤ px ∧ px < x + other.width ∧ y ≤ py ∧ py < y + other.height) :
    img'.pix px py = other.pix (px - x) (py - y) := by
  rw [Img.copyFrom] at h
  by_cases hfit : other.width + x ≤ img.width ∧ other.height + y ≤ img.height
  · rw [if_pos hfit] at h
    cases h
    simp only [if_pos hin]
  · rw [if_neg hfit] at h; cases h

/-- Helper: outside the copied rectangle, `copy_from` keeps the destination. -/
theorem copyFrom_pix_outside {img other img' : Img} {x y : Nat}
    (h : img.copyFrom other x y = some img') (px py : Nat)
    (hout : ¬(x ≤ px ∧ px < x + other.width ∧ y ≤ py ∧ py < y + other.height)) :
    img'.pix px py = img.pix px py := by
  rw [Img.copyFrom] at h
  by_cases hfit : other.width + x ≤ img.width ∧ other.height + y ≤ img.height
  · rw [if_pos hfit] at h
    cases h
    simp only [if_neg hout]
  · rw [if_neg hfit] at h; cases h

/-- Helper: entries of an enumeration are list members. -/
theorem snd_mem_of_mem_enumFrom {α : Type} :
    ∀ (l : List α) (k : Nat) (p : Nat × α), p ∈ l.enumFrom k → p.2 ∈ l := by
  intro l
  induction l with
  | nil => intro k p h; cases h
  | cons a l ih =>
    intro k p h
    simp only [List.enumFrom, List.mem_cons] at h
    rcases h with h | h
    · subst h; exact List.mem_cons_self _ _
    · exact List.mem_cons_of_mem _ (ih (k + 1) p h)

/-- Helper: the placement loop preserves dimensions and succeeds whenever the
grid is nonempty and every listed sprite's rectangle fits the canvas. -/
theorem placeSprites_success (idef : ImageDef) (hgw : idef.image_width ≠ 0) :
    ∀ (l : List (Nat × Img)) (img : Img),
      (∀ p, p ∈ l →
        p.2.width + (p.1 % idef.image_width) * idef.sprite_width_px ≤ img.width ∧
        p.2.height + (p.1 / idef.image_width) * idef.sprite_height_px ≤ img.height) →
      ∃ img', placeSprites idef l img = some img' ∧
        img'.width = img.width ∧ img'.height = img.height := by
  intro l
  induction l with
  | nil => intro img _; exact ⟨img, rfl, rfl, rfl⟩
  | cons p rest ih =>
    intro img hfit
    match p with
    | (i, sprite) =>
      have hf : sprite.width + (i % idef.image_width) * idef.sprite_width_px ≤ img.width ∧
          sprite.height + (i / idef.image_width) * idef.sprite_height_px ≤ img.height :=
        hfit (i, sprite) (List.mem_cons_self _ _)
      obtain ⟨img1, hcf⟩ : ∃ img1, img.copyFrom sprite
          ((i % idef.image_width) * idef.sprite_width_px)
          ((i / idef.image_width) * idef.sprite_height_px) = some img1 :=
        ⟨_, by rw [Img.copyFrom, if_pos hf]⟩
      obtain ⟨hw1, hh1⟩ := copyFrom_dims hcf
      obtain ⟨img', hrun, hw, hh⟩ := ih img1 (by
        intro q hq
        rw [hw1, hh1]
        exact hfit q (List.mem_cons_of_mem _ hq))
      refine ⟨img', ?_, by rw [hw, hw1], by rw [hh, hh1]⟩
      rw [placeSprites, if_neg hgw]
      simp only [hcf]
      exact hrun

/-- Helper: the placement loop leaves untouched every pixel outside all
listed rectangles. -/
theorem placeSprites_untouched (idef : ImageDef) :
    ∀ (l : List (Nat × Img)) (img img' : Img) (px py : Nat),
      placeSprites idef l img = some img' →
      (∀ p, p ∈ l →
        ¬((p.1 % idef.image_width) * idef.sprite_width_px ≤ px ∧
          px < (p.1 % idef.image_width) * idef.sprite_width_px + p.2.width ∧
          (p.1 / idef.image_width) * idef.sprite_height_px ≤ py ∧
          py < (p.1 / idef.image_width) * idef.sprite_height_px + p.2.height)) →
      img'.pix px py = img.pix px py := by
  intro l
  induction l with
  | nil =>
    intro img img' px py hrun _
    simp only [placeSprites, Option.some.injEq] at hrun
    rw [← hrun]
  | cons p rest ih =>
    intro img img' px py hrun hmiss
    match p with
    | (i, sprite) =>
      rw [placeSprites] at hrun
      by_cases hgw : idef.image_width = 0
      · rw [if_pos hgw] at hrun; cases hrun
      · rw [if_neg hgw] at hrun
        match hcf : img.copyFrom sprite ((i % idef.image_width) * idef.sprite_width_px)
            ((i / idef.image_width) * idef.sprite_height_px) with
        | none => simp only [hcf] at hrun; cases hrun
        | some img1 =>
          simp only [hcf] at hrun
          have h1 := ih _ img' px py hrun (fun q hq => hmiss q (List.mem_cons_of_mem _ hq))
          rw [h1]
          exact copyFrom_pix_outside hcf px py (hmiss (i, sprite) (List.mem_cons_self _ _))

/-- Helper: after a successful placement loop with strictly increasing sprite
indices and uniform sprite dimensions, each listed sprite's pixels appear at
its grid cell. -/
theorem placeSprites_write (idef : ImageDef) :
    ∀ (l : List (Nat × Img)) (img img' : Img),
      placeSprites idef l img = some img' →
      l.Pairwise (fun p q => p.1 < q.1) →
      (∀ p, p ∈ l → p.2.width = idef.sprite_width_px ∧
        p.2.height = idef.sprite_height_px) →
      ∀ i s, (i, s) ∈ l → ∀ u v, u < idef.sprite_width_px → v < idef.sprite_height_px →
        img'.pix ((i % idef.image_width) * idef.sprite_width_px + u)
          ((i / idef.image_width) * idef.sprite_height_px + v) = s.pix u v := by
  intro l
  induction l with
  | nil => intro img img' _ _ _ i s hmem; cases hmem
  | cons p rest ih =>
    intro img img' hrun hpair hdims i s hmem u v hu hv
    match p with
    | (j, t) =>
      rw [placeSprites] at hrun
      by_cases hgw : idef.image_width = 0
      · rw [if_pos hgw] at hrun; cases hrun
      · rw [if_neg hgw] at hrun
        match hcf : img.copyFrom t ((j % idef.image_width) * idef.sprite_width_px)
            ((j / idef.image_width) * idef.sprite_height_px) with
        | none => simp only [hcf] at hrun; cases hrun
        | some img1 =>
          simp only [hcf] at hrun
          rcases List.mem_cons.mp hmem with hhead | htail
          · injection hhead with h1 h2
            subst h1
            subst h2
            have hd := hdims (i, s) (List.mem_cons_self _ _)
            have hmiss : ∀ q, q ∈ rest →
                ¬((q.1 % idef.image_width) * idef.sprite_width_px ≤
                    (i % idef.image_width) * idef.sprite_width_px + u ∧
                  (i % idef.image_width) * idef.sprite_width_px + u <
                    (q.1 % idef.image_width) * idef.sprite_width_px + q.2.width ∧
                  (q.1 / idef.image_width) * idef.sprite_height_px ≤
                    (i / idef.image_width) * idef.sprite_height_px + v ∧
                  (i / idef.image_width) * idef.sprite_height_px + v <
                    (q.1 / idef.image_width) * idef.sprite_height_px + q.2.height) := by
              intro q hq hc
              have hqd := hdims q (List.mem_cons_of_mem _ hq)
              have hlt : i < q.1 := (List.pairwise_cons.mp hpair).1 q hq
              rw [hqd.1, hqd.2] at hc
              obtain ⟨hc1, hc2, hc3, hc4⟩ := hc
              have hcol : q.1 % idef.image_width = i % idef.image_width := by
                by_cases hcmp : q.1 % idef.image_width ≤ i % idef.image_width
                · by_cases hcmp2 : q.1 % idef.image_width = i % idef.image_width
                  · exact hcmp2
                  · have hlt2 : q.1 % idef.image_width + 1 ≤ i % idef.image_width := by omega
                    have := Nat.mul_le_mul_right idef.sprite_width_px hlt2
                    rw [Nat.add_mul, one_mul] at this
                    omega
                · have hlt2 : i % idef.image_width + 1 ≤ q.1 % idef.image_width := by omega
                  have := Nat.mul_le_mul_right idef.sprite_width_px hlt2
                  rw [Nat.add_mul, one_mul] at this
                  omega
              have hrow : q.1 / idef.image_width = i / idef.image_width := by
                by_cases hcmp : q.1 / idef.image_width ≤ i / idef.image_width
                · by_cases hcmp2 : q.1 / idef.image_width = i / idef.image_width
                  · exact hcmp2
                  · have hlt2 : q.1 / idef.image_width + 1 ≤ i / idef.image_width := by omega
                    have := Nat.mul_le_mul_right idef.sprite_height_px hlt2
                    rw [Nat.add_mul, one_mul] at this
                    omega
                · have hlt2 : i / idef.image_width + 1 ≤ q.1 / idef.image_width := by omega
                  have := Nat.mul_le_mul_right idef.sprite_height_px hlt2
                  rw [Nat.add_mul, one_mul] at this
                  omega
              have e1 : idef.image_width * (q.1 / idef.image_width) +
                  q.1 % idef.image_width = q.1 := Nat.div_add_mod q.1 _
              have e2 : idef.image_width * (i / idef.image_width) +
                  i % idef.image_width = i := Nat.div_add_mod i _
              rw [hcol, hrow] at e1
              have : q.1 = i := e1.symm.trans e2
              omega
            have h1 := placeSprites_untouched idef rest img1 img' _ _ hrun hmiss
            rw [h1]
            have hin : (i % idef.image_width) * idef.sprite_width_px ≤
                (i % idef.image_width) * idef.sprite_width_px + u ∧
                (i % idef.image_width) * idef.sprite_width_px + u <
                  (i % idef.image_width) * idef.sprite_width_px + s.width ∧
                (i / idef.image_width) * idef.sprite_height_px ≤
                  (i / idef.image_width) * idef.sprite_height_px + v ∧
                (i / idef.image_width) * idef.sprite_height_px + v <
                  (i / idef.image_width) * idef.sprite_height_px + s.height := by
              rw [hd.1, hd.2]
              omega
            have h2 := copyFrom_pix_inside hcf _ _ hin
            rw [h2]
            congr 1 <;> omega
          · exact ih img1 img' hrun (List.pairwise_cons.mp hpair).2
              (fun q hq => hdims q (List.mem_cons_of_mem _ hq)) i s htail u v hu hv

/-- Helper: enumeration indices are below the list length. -/
theorem fst_lt_of_mem_enumFrom {α : Type} :
    ∀ (l : List α) (k : Nat) (p : Nat × α), p ∈ l.enumFrom k → p.1 < k + l.length := by
  intro l
  induction l with
  | nil => intro k p h; cases h
  | cons a l ih =>
    intro k p h
    simp only [List.enumFrom, List.mem_cons] at h
    rcases h with h | h
    · subst h; simp
    · have := ih (k + 1) p h
      simp only [List.length_cons]
      omega

/-- The claim's property C7: for a run of exactly `grid_w * grid_h` sprites of
size `sprite_w * sprite_h`, subimage assembly succeeds, places sprite `i` at
pixel origin `((i mod grid_w) * sprite_w, (i div grid_w) * sprite_h)`, and
every pixel of the composed subimage is exactly the corresponding pixel of
the unique sprite whose cell contains it — no gaps and no overlap. -/
theorem subimage_layout (sprites : List Img) (idef : ImageDef)
    (hgw : 0 < idef.image_width)
    (hcount : sprites.length = idef.image_width * idef.image_height)
    (hdims : ∀ s, s ∈ sprites → s.width = idef.sprite_width_px ∧
      s.height = idef.sprite_height_px) :
    ∃ img, make_subimage sprites idef = some img ∧
      img.width = idef.sprite_width_px * idef.image_width ∧
      img.height = idef.sprite_height_px * idef.image_height ∧
      (∀ i s, sprites.get? i = some s →
        ∀ u v, u < idef.sprite_width_px → v < idef.sprite_height_px →
          img.pix ((i % idef.image_width) * idef.sprite_width_px + u)
            ((i / idef.image_width) * idef.sprite_height_px + v) = s.pix u v) ∧
      (∀ px py, px < idef.sprite_width_px * idef.image_width →
        py < idef.sprite_height_px * idef.image_height →
        ∃ s, sprites.get? ((py / idef.sprite_height_px) * idef.image_width +
            px / idef.sprite_width_px) = some s ∧
          img.pix px py = s.pix (px % idef.sprite_width_px) (py % idef.sprite_height_px)) := by
  have hgw' : idef.image_width ≠ 0 := Nat.pos_iff_ne_zero.mp hgw
  have hfits : ∀ p, p ∈ sprites.enum →
      p.2.width + (p.1 % idef.image_width) * idef.sprite_width_px ≤
        (newImg (idef.sprite_width_px * idef.image_width)
          (idef.sprite_height_px * idef.image_height)).width ∧
      p.2.height + (p.1 / idef.image_width) * idef.sprite_height_px ≤
        (newImg (idef.sprite_width_px * idef.image_width)
          (idef.sprite_height_px * idef.image_height)).height := by
    intro p hp
    have hd := hdims p.2 (snd_mem_of_mem_enumFrom sprites 0 p hp)
    have hidx : p.1 < sprites.length := by
      have := fst_lt_of_mem_enumFrom sprites 0 p hp
      omega
    rw [hcount] at hidx
    have hmod : p.1 % idef.image_width < idef.image_width := Nat.mod_lt _ hgw
    have hdiv : p.1 / idef.image_width < idef.image_height :=
      (Nat.div_lt_iff_lt_mul hgw).mpr (by rw [Nat.mul_comm]; exact hidx)
    constructor
    · show p.2.width + (p.1 % idef.image_width) * idef.sprite_width_px ≤
        idef.sprite_width_px * idef.image_width
      rw [hd.1]
      have h1 : (p.1 % idef.image_width + 1) * idef.sprite_width_px ≤
          idef.image_width * idef.sprite_width_px :=
        Nat.mul_le_mul_right _ (by omega)
      have h2 : (p.1 % idef.image_width + 1) * idef.sprite_width_px =
          (p.1 % idef.image_width) * idef.sprite_width_px + idef.sprite_width_px :=
        Nat.succ_mul _ _
      have h3 : idef.image_width * idef.sprite_width_px =
          idef.sprite_width_px * idef.image_width := Nat.mul_comm _ _
      omega
    · show p.2.height + (p.1 / idef.image_width) * idef.sprite_height_px ≤
        idef.sprite_height_px * idef.image_height
      rw [hd.2]
      have h1 : (p.1 / idef.image_width + 1) * idef.sprite_height_px ≤
          idef.image_height * idef.sprite_height_px :=
        Nat.mul_le_mul_right _ (by omega)
      have h2 : (p.1 / idef.image_width + 1) * idef.sprite_height_px =
          (p.1 / idef.image_width) * idef.sprite_height_px + idef.sprite_height_px :=
        Nat.succ_mul _ _
      have h3 : idef.image_height * idef.sprite_height_px =
          idef.sprite_height_px * idef.image_height := Nat.mul_comm _ _
      omega
  obtain ⟨img, hrun, hw, hh⟩ := placeSprites_success idef hgw' sprites.enum _ hfits
  have hwidth : img.width = idef.sprite_width_px * idef.image_width := hw
  have hheight : img.height = idef.sprite_height_px * idef.image_height := hh
  have hplace : ∀ i s, sprites.get? i = some s →
      ∀ u v, u < idef.sprite_width_px → v < idef.sprite_height_px →
        img.pix ((i % idef.image_width) * idef.sprite_width_px + u)
          ((i / idef.image_width) * idef.sprite_height_px + v) = s.pix u v := by
    intro i s hget u v hu hv
    exact placeSprites_write idef sprites.enum _ img hrun
      (pairwise_fst_lt_enumFrom sprites 0)
      (fun q hq => hdims q.2 (snd_mem_of_mem_enumFrom sprites 0 q hq))
      i s (mem_enum_of_get? sprites i s hget) u v hu hv
  refine ⟨img, hrun, hwidth, hheight, hplace, ?_⟩
  intro px py hpx hpy
  have hsw : 0 < idef.sprite_width_px := by
    rcases Nat.eq_zero_or_pos idef.sprite_width_px with h | h
    · rw [h] at hpx; simp at hpx
    · exact h
  have hsh : 0 < idef.sprite_height_px := by
    rcases Nat.eq_zero_or_pos idef.sprite_height_px with h | h
    · rw [h] at hpy; simp at hpy
    · exact h
  have hb : px / idef.sprite_width_px < idef.image_width :=
    (Nat.div_lt_iff_lt_mul hsw).mpr (by rw [Nat.mul_comm]; exact hpx)
  have ha : py / idef.sprite_height_px < idef.image_height :=
    (Nat.div_lt_iff_lt_mul hsh).mpr (by rw [Nat.mul_comm]; exact hpy)
  have hi : (py / idef.sprite_height_px) * idef.image_width +
      px / idef.sprite_width_px < idef.image_width * idef.image_height := by
    have h1 : (py / idef.sprite_height_px + 1) * idef.image_width ≤
        idef.image_height * idef.image_width :=
      Nat.mul_le_mul_right _ (by omega)
    have h2 : (py / idef.sprite_height_px + 1) * idef.image_width =
        (py / idef.sprite_height_px) * idef.image_width + idef.image_width :=
      Nat.succ_mul _ _
    have h3 : idef.image_height * idef.image_width =
        idef.image_width * idef.image_height := Nat.mul_comm _ _
    omega
  have hilen : (py / idef.sprite_height_px) * idef.image_width +
      px / idef.sprite_width_px < sprites.length := by rw [hcount]; exact hi
  have hget : sprites.get? ((py / idef.sprite_height_px) * idef.image_width +
      px / idef.sprite_width_px) = some (sprites.get ⟨_, hilen⟩) :=
    List.get?_eq_get hilen
  refine ⟨sprites.get ⟨_, hilen⟩, hget, ?_⟩
  have hmodi : ((py / idef.sprite_height_px) * idef.image_width +
      px / idef.sprite_width_px) % idef.image_width = px / idef.sprite_width_px := by
    rw [Nat.mul_comm (py / idef.sprite_height_px) idef.image_width]
    rw [Nat.mul_add_mod]
    exact Nat.mod_eq_of_lt hb
  have hdivi : ((py / idef.sprite_height_px) * idef.image_width +
      px / idef.sprite_width_px) / idef.image_width = py / idef.sprite_height_px := by
    rw [Nat.mul_comm (py / idef.sprite_height_px) idef.image_width]
    rw [Nat.mul_add_div hgw]
    rw [Nat.div_eq_of_lt hb]
    omega
  have hp := hplace _ _ hget (px % idef.sprite_width_px) (py % idef.sprite_height_px)
    (Nat.mod_lt _ hsw) (Nat.mod_lt _ hsh)
  rw [hmodi, hdivi] at hp
  have hx : (px / idef.sprite_width_px) * idef.sprite_width_px +
      px % idef.sprite_width_px = px := by
    rw [Nat.mul_comm]
    exact Nat.div_add_mod px _
  have hy : (py / idef.sprite_height_px) * idef.sprite_height_px +
      py % idef.sprite_height_px = py := by
    rw [Nat.mul_comm]
    exact Nat.div_add_mod py _
  rw [hx, hy] at hp
  exact hp

/-- Sample descriptor for the C7 witness: a 2×1 grid of 1×1 sprites. -/
def idefC7 : ImageDef :=
  { data_length := 0, has_transparency := false, is_encrypted := false
    compression := CompressionType.None, pixel_data_type := PixelDataType.Bpp 8
    num_sprites := 2, sprite_width_px := 1, sprite_height_px := 1
    offset_x := 0, offset_y := 0, image_width := 2, image_height := 1
    num_palettes := 1, transparent_color_index := 0, palette_data_offset := 0
    pixel_data_offset := 0, num_subimages := 1 }

/-- C7 witness: the layout theorem instantiated on two blank 1×1 sprites in a
2×1 grid. -/
theorem subimage_layout_witness :
    ∃ img, make_subimage [newImg 1 1, newImg 1 1] idefC7 = some img ∧
      img.width = idefC7.sprite_width_px * idefC7.image_width ∧
      img.height = idefC7.sprite_height_px * idefC7.image_height ∧
      (∀ i s, ([newImg 1 1, newImg 1 1] : List Img).get? i = some s →
        ∀ u v, u < idefC7.sprite_width_px → v < idefC7.sprite_height_px →
          img.pix ((i % idefC7.image_width) * idefC7.sprite_width_px + u)
            ((i / idefC7.image_width) * idefC7.sprite_height_px + v) = s.pix u v) ∧
      (∀ px py, px < idefC7.sprite_width_px * idefC7.image_width →
        py < idefC7.sprite_height_px * idefC7.image_height →
        ∃ s, ([newImg 1 1, newImg 1 1] : List Img).get?
            ((py / idefC7.sprite_height_px) * idefC7.image_width +
              px / idefC7.sprite_width_px) = some s ∧
          img.pix px py =
            s.pix (px % idefC7.sprite_width_px) (py % idefC7.sprite_height_px)) :=
  subimage_layout [newImg 1 1, newImg 1 1] idefC7 (by decide) rfl
    (by
      intro s hs
      rcases List.mem_cons.mp hs with h | h
      · rw [h]; exact ⟨rfl, rfl⟩
      · rcases List.mem_cons.mp h with h2 | h2
        · rw [h2]; exact ⟨rfl, rfl⟩
        · cases h2)

/-- Sprite rasterization dispatch, as `make_sprite`: decompress according to
the compression mode, then rasterize via the indexed or direct path. -/
def make_sprite (data : List Nat) (idef : ImageDef) (palette : List Rgba) : Option Img :=
  match (match idef.compression with
    | CompressionType.None => some data
    | CompressionType.Bytewise => some (decompress_bytewise data)
    | CompressionType.Wordwise => decompress_wordwise data) with
  | none => none
  | some pixel_data =>
    match idef.pixel_data_type with
    | PixelDataType.Bpp bpp => make_indexed_sprite pixel_data idef bpp palette
    | PixelDataType.Direct => make_direct_sprite pixel_data idef

/-- Subimage batch of `make_spritesheet`: for each `j` in the given index
list, slice `sprites[j*spg .. (j+1)*spg]` and compose a subimage; `none`
models the Rust slicing panic when the range exceeds the sprite list. -/
def makeSubimages (idef : ImageDef) (sprites : List Img) : List Nat → Option (List Img)
  | [] => some []
  | j :: rest =>
    let spg := idef.image_width * idef.image_height
    if j * spg + spg ≤ sprites.length then
      match make_subimage ((sprites.drop (j * spg)).take spg) idef with
      | none => none
      | some sub => (makeSubimages idef sprites rest).map (fun l => sub :: l)
    else none

/-- Subimage-placement loop of `make_spritesheet` for palette row `i`:
subimage `j` is copied to `(j * grid_w * sprite_w, i * grid_h * sprite_h)`;
`none` models the `expect` panic on a failed `copy_from`. -/
def placeSubimages (idef : ImageDef) (i : Nat) : List (Nat × Img) → Img → Option Img
  | [], img => some img
  | (j, sub) :: rest, img =>
    let x := j * idef.image_width * idef.sprite_width_px
    let y := i * idef.image_height * idef.sprite_height_px
    match img.copyFrom sub x y with
    | none => none
    | some img' => placeSubimages idef i rest img'

/-- Palette-row loop of `make_spritesheet`: rasterize every sprite with the
row's palette, group into subimages, and place them along the row band. -/
def sheetRows (idef : ImageDef) (pdata : List (List Nat)) :
    List (Nat × List Rgba) → Img → Option Img
  | [], img => some img
  | (i, palette) :: rest, img =>
    match pdata.mapM (fun pd => make_sprite pd idef palette) with
    | none => none
    | some sprites =>
      match makeSubimages idef sprites (List.range idef.num_subimages) with
      | none => none
      | some subs =>
        match placeSubimages idef i subs.enum img with
        | none => none
        | some img' => sheetRows idef pdata rest img'

/-- Spritesheet composition, as `make_spritesheet`. -/
def make_spritesheet (idef : ImageDef) (pdata : List (List Nat))
    (palettes : List (List Rgba)) : Option Img :=
  sheetRows idef pdata palettes.enum
    (newImg (idef.num_subimages * idef.image_width * idef.sprite_width_px)
      (idef.num_palettes * idef.image_height * idef.sprite_height_px))

/-- Helper: the sprite-placement loop preserves canvas dimensions. -/
theorem placeSprites_dims (idef : ImageDef) :
    ∀ (l : List (Nat × Img)) (img img' : Img),
      placeSprites idef l img = some img' →
      img'.width = img.width ∧ img'.height = img.height := by
  intro l
  induction l with
  | nil =>
    intro img img' hrun
    simp only [placeSprites, Option.some.injEq] at hrun
    rw [← hrun]
    exact ⟨rfl, rfl⟩
  | cons p rest ih =>
    intro img img' hrun
    match p with
    | (i, sprite) =>
      rw [placeSprites] at hrun
      by_cases hgw : idef.image_width = 0
      · rw [if_pos hgw] at hrun; cases hrun
      · rw [if_neg hgw] at hrun
        match hcf : img.copyFrom sprite ((i % idef.image_width) * idef.sprite_width_px)
            ((i / idef.image_width) * idef.sprite_height_px) with
        | none => simp only [hcf] at hrun; cases hrun
        | some img1 =>
          simp only [hcf] at hrun
          have h1 := ih img1 img' hrun
          have h2 := copyFrom_dims hcf
          exact ⟨h1.1.trans h2.1, h1.2.trans h2.2⟩

/-- Helper: a composed subimage has the subimage's full dimensions. -/
theorem make_subimage_dims (sprites : List Img) (idef : ImageDef) (img : Img)
    (h : make_subimage sprites idef = some img) :
    img.width = idef.sprite_width_px * idef.image_width ∧
    img.height = idef.sprite_height_px * idef.image_height := by
  rw [make_subimage] at h
  exact placeSprites_dims idef sprites.enum _ img h

/-- Helper: every subimage in a successful batch has the full dimensions. -/
theorem makeSubimages_dims (idef : ImageDef) (sprites : List Img) :
    ∀ (js : List Nat) (subs : List Img),
      makeSubimages idef sprites js = some subs →
      ∀ sub, sub ∈ subs →
        sub.width = idef.sprite_width_px * idef.image_width ∧
        sub.height = idef.sprite_height_px * idef.image_height := by
  intro js
  induction js with
  | nil =>
    intro subs hrun sub hsub
    simp only [makeSubimages, Option.some.injEq] at hrun
    rw [← hrun] at hsub
    cases hsub
  | cons j rest ih =>
    intro subs hrun sub hsub
    rw [makeSubimages] at hrun
    by_cases hlen : j * (idef.image_width * idef.image_height) +
        idef.image_width * idef.image_height ≤ sprites.length
    · rw [if_pos hlen] at hrun
      match hmk : make_subimage ((sprites.drop (j * (idef.image_width * idef.image_height))).take
          (idef.image_width * idef.image_height)) idef with
      | none => simp only [hmk] at hrun; cases hrun
      | some sub0 =>
        simp only [hmk] at hrun
        match hrest : makeSubimages idef sprites rest with
        | none => rw [hrest] at hrun; cases hrun
        | some subs0 =>
          rw [hrest] at hrun
          simp only [Option.map_some', Option.some.injEq] at hrun
          rw [← hrun] at hsub
          rcases List.mem_cons.mp hsub with h | h
          · rw [h]
            exact make_subimage_dims _ idef sub0 hmk
          · exact ih subs0 hrest sub h
    · rw [if_neg hlen] at hrun; cases hrun

/-- Helper: the subimage-placement loop preserves canvas dimensions. -/
theorem placeSubimages_dims (idef : ImageDef) (i : Nat) :
    ∀ (l : List (Nat × Img)) (img img' : Img),
      placeSubimages idef i l img = some img' →
      img'.width = img.width ∧ img'.height = img.height := by
  intro l
  induction l with
  | nil =>
    intro img img' hrun
    simp only [placeSubimages, Option.some.injEq] at hrun
    rw [← hrun]
    exact ⟨rfl, rfl⟩
  | cons p rest ih =>
    intro img img' hrun
    match p with
    | (j, sub) =>
      rw [placeSubimages] at hrun
      match hcf : img.copyFrom sub (j * idef.image_width * idef.sprite_width_px)
          (i * idef.image_height * idef.sprite_height_px) with
      | none => simp only [hcf] at hrun; cases hrun
      | some img1 =>
        simp only [hcf] at hrun
        have h1 := ih img1 img' hrun
        have h2 := copyFrom_dims hcf
        exact ⟨h1.1.trans h2.1, h1.2.trans h2.2⟩

/-- Helper: the palette-row loop preserves canvas dimensions. -/
theorem sheetRows_dims (idef : ImageDef) (pdata : List (List Nat)) :
    ∀ (l : List (Nat × List Rgba)) (img img' : Img),
      sheetRows idef pdata l img = some img' →
      img'.width = img.width ∧ img'.height = img.height := by
  intro l
  induction l with
  | nil =>
    intro img img' hrun
    simp only [sheetRows, Option.some.injEq] at hrun
    rw [← hrun]
    exact ⟨rfl, rfl⟩
  | cons p rest ih =>
    intro img img' hrun
    match p with
    | (i, palette) =>
      rw [sheetRows] at hrun
      match hsp : pdata.mapM (fun pd => make_sprite pd idef palette) with
      | none => rw [hsp] at hrun; cases hrun
      | some sprites =>
        simp only [hsp] at hrun
        match hsub : makeSubimages idef sprites (List.range idef.num_subimages) with
        | none => simp only [hsub] at hrun; cases hrun
        | some subs =>
          simp only [hsub] at hrun
          match hps : placeSubimages idef i subs.enum img with
          | none => simp only [hps] at hrun; cases hrun
          | some img1 =>
            simp only [hps] at hrun
            have h1 := ih img1 img' hrun
            have h2 := placeSubimages_dims idef i subs.enum img img1 hps
            exact ⟨h1.1.trans h2.1, h1.2.trans h2.2⟩

/-- Helper: the subimage-placement loop leaves untouched every pixel outside
all listed rectangles. -/
theorem placeSubimages_untouched (idef : ImageDef) (i : Nat) :
    ∀ (l : List (Nat × Img)) (img img' : Img) (px py : Nat),
      placeSubimages idef i l img = some img' →
      (∀ p, p ∈ l →
        ¬(p.1 * idef.image_width * idef.sprite_width_px ≤ px ∧
          px < p.1 * idef.image_width * idef.sprite_width_px + p.2.width ∧
          i * idef.image_height * idef.sprite_height_px ≤ py ∧
          py < i * idef.image_height * idef.sprite_height_px + p.2.height)) →
      img'.pix px py = img.pix px py := by
  intro l
  induction l with
  | nil =>
    intro img img' px py hrun _
    simp only [placeSubimages, Option.some.injEq] at hrun
    rw [← hrun]
  | cons p rest ih =>
    intro img img' px py hrun hmiss
    match p with
    | (j, sub) =>
      rw [placeSubimages] at hrun
      match hcf : img.copyFrom sub (j * idef.image_width * idef.sprite_width_px)
          (i * idef.image_height * idef.sprite_height_px) with
      | none => simp only [hcf] at hrun; cases hrun
      | some img1 =>
        simp only [hcf] at hrun
        have h1 := ih img1 img' px py hrun (fun q hq => hmiss q (List.mem_cons_of_mem _ hq))
        rw [h1]
        exact copyFrom_pix_outside hcf px py (hmiss (j, sub) (List.mem_cons_self _ _))

/-- Helper: after a successful subimage-placement loop with strictly
increasing indices and full-size subimages, each listed subimage's pixels
appear at its column of the row band. -/
theorem placeSubimages_write (idef : ImageDef) (i : Nat) :
    ∀ (l : List (Nat × Img)) (img img' : Img),
      placeSubimages idef i l img = some img' →
      l.Pairwise (fun p q => p.1 < q.1) →
      (∀ p, p ∈ l → p.2.width = idef.sprite_width_px * idef.image_width) →
      ∀ j sub, (j, sub) ∈ l → ∀ u v, u < sub.width → v < sub.height →
        img'.pix (j * idef.image_width * idef.sprite_width_px + u)
          (i * idef.image_height * idef.sprite_height_px + v) = sub.pix u v := by
  intro l
  induction l with
  | nil => intro img img' _ _ _ j sub hmem; cases hmem
  | cons p rest ih =>
    intro img img' hrun hpair hwidths j sub hmem u v hu hv
    match p with
    | (q1, q2) =>
      rw [placeSubimages] at hrun
      match hcf : img.copyFrom q2 (q1 * idef.image_width * idef.sprite_width_px)
          (i * idef.image_height * idef.sprite_height_px) with
      | none => simp only [hcf] at hrun; cases hrun
      | some img1 =>
        simp only [hcf] at hrun
        rcases List.mem_cons.mp hmem with hhead | htail
        · injection hhead with h1 h2
          subst h1
          subst h2
          have hwj := hwidths (j, sub) (List.mem_cons_self _ _)
          have hmiss : ∀ q, q ∈ rest →
              ¬(q.1 * idef.image_width * idef.sprite_width_px ≤
                  j * idef.image_width * idef.sprite_width_px + u ∧
                j * idef.image_width * idef.sprite_width_px + u <
                  q.1 * idef.image_width * idef.sprite_width_px + q.2.width ∧
                i * idef.image_height * idef.sprite_height_px ≤
                  i * idef.image_height * idef.sprite_height_px + v ∧
                i * idef.image_height * idef.sprite_height_px + v <
                  i * idef.image_height * idef.sprite_height_px + q.2.height) := by
            intro q hq hc
            have hlt : j < q.1 := (List.pairwise_cons.mp hpair).1 q hq
            obtain ⟨hc1, _, _, _⟩ := hc
            have hmono : (j + 1) * idef.image_width * idef.sprite_width_px ≤
                q.1 * idef.image_width * idef.sprite_width_px :=
              Nat.mul_le_mul_right _ (Nat.mul_le_mul_right _ (by omega))
            have hsucc : (j + 1) * idef.image_width * idef.sprite_width_px =
                j * idef.image_width * idef.sprite_width_px +
                  idef.image_width * idef.sprite_width_px := by
              rw [Nat.succ_mul, Nat.add_mul]
            have hcomm : idef.sprite_width_px * idef.image_width =
                idef.image_width * idef.sprite_width_px := Nat.mul_comm _ _
            rw [hwj] at hu
            omega
          have h1 := placeSubimages_untouched idef i rest img1 img' _ _ hrun hmiss
          rw [h1]
          have hin : j * idef.image_width * idef.sprite_width_px ≤
              j * idef.image_width * idef.sprite_width_px + u ∧
              j * idef.image_width * idef.sprite_width_px + u <
                j * idef.image_width * idef.sprite_width_px + sub.width ∧
              i * idef.image_height * idef.sprite_height_px ≤
                i * idef.image_height * idef.sprite_height_px + v ∧
              i * idef.image_height * idef.sprite_height_px + v <
                i * idef.image_height * idef.sprite_height_px + sub.height := by
            omega
          have h2 := copyFrom_pix_inside hcf _ _ hin
          rw [h2]
          congr 1 <;> omega
        · exact ih img1 img' hrun (List.pairwise_cons.mp hpair).2
            (fun q hq => hwidths q (List.mem_cons_of_mem _ hq)) j sub htail u v hu hv

/-- Helper: a palette row writes only inside its own horizontal band, so the
row loop leaves pixels of other bands untouched. -/
theorem sheetRows_untouched (idef : ImageDef) (pdata : List (List Nat)) :
    ∀ (l : List (Nat × List Rgba)) (img img' : Img) (px py : Nat),
      sheetRows idef pdata l img = some img' →
      (∀ p, p ∈ l →
        ¬(p.1 * idef.image_height * idef.sprite_height_px ≤ py ∧
          py < p.1 * idef.image_height * idef.sprite_height_px +
            idef.sprite_height_px * idef.image_height)) →
      img'.pix px py = img.pix px py := by
  intro l
  induction l with
  | nil =>
    intro img img' px py hrun _
    simp only [sheetRows, Option.some.injEq] at hrun
    rw [← hrun]
  | cons p rest ih =>
    intro img img' px py hrun hmiss
    match p with
    | (i, palette) =>
      rw [sheetRows] at hrun
      match hsp : pdata.mapM (fun pd => make_sprite pd idef palette) with
      | none => rw [hsp] at hrun; cases hrun
      | some sprites =>
        simp only [hsp] at hrun
        match hsub : makeSubimages idef sprites (List.range idef.num_subimages) with
        | none => simp only [hsub] at hrun; cases hrun
        | some subs =>
          simp only [hsub] at hrun
          match hps : placeSubimages idef i subs.enum img with
          | none => simp only [hps] at hrun; cases hrun
          | some img1 =>
            simp only [hps] at hrun
            have h1 := ih img1 img' px py hrun
              (fun q hq => hmiss q (List.mem_cons_of_mem _ hq))
            rw [h1]
            refine placeSubimages_untouched idef i subs.enum img img1 px py hps ?_
            intro q hq hc
            have hqd := (makeSubimages_dims idef sprites _ subs hsub q.2
              (snd_mem_of_mem_enumFrom subs 0 q hq)).2
            have hband := hmiss (i, palette) (List.mem_cons_self _ _)
            rw [hqd] at hc
            exact hband ⟨hc.2.2.1, hc.2.2.2⟩

/-- Helper: the main row-loop lemma — after a successful run containing the
target palette row, the target subimage's pixels sit at the claimed position
of the spritesheet. -/
theorem sheetRows_write (idef : ImageDef) (pdata : List (List Nat)) :
    ∀ (l : List (Nat × List Rgba)) (img img' : Img),
      sheetRows idef pdata l img = some img' →
      l.Pairwise (fun p q => p.1 < q.1) →
      ∀ i palette, (i, palette) ∈ l →
        ∀ sprites subs j sub,
          pdata.mapM (fun pd => make_sprite pd idef palette) = some sprites →
          makeSubimages idef sprites (List.range idef.num_subimages) = some subs →
          subs.get? j = some sub →
          ∀ u v, u < sub.width → v < sub.height →
            img'.pix (j * idef.image_width * idef.sprite_width_px + u)
              (i * idef.image_height * idef.sprite_height_px + v) = sub.pix u v := by
  intro l
  induction l with
  | nil => intro img img' _ _ i palette hmem; cases hmem
  | cons p rest ih =>
    intro img img' hrun hpair i palette hmem sprites subs j sub hsp hsub hget u v hu hv
    match p with
    | (i', palette') =>
      rw [sheetRows] at hrun
      rcases List.mem_cons.mp hmem with hhead | htail
      · injection hhead with h1 h2
        subst h1
        subst h2
        simp only [hsp] at hrun
        simp only [hsub] at hrun
        match hps : placeSubimages idef i subs.enum img with
        | none => simp only [hps] at hrun; cases hrun
        | some img1 =>
          simp only [hps] at hrun
          have hval := placeSubimages_write idef i subs.enum img img1 hps
            (pairwise_fst_lt_enumFrom subs 0)
            (fun q hq => (makeSubimages_dims idef sprites _ subs hsub q.2
              (snd_mem_of_mem_enumFrom subs 0 q hq)).1)
            j sub (mem_enum_of_get? subs j sub hget) u v hu hv
          have hsubh : sub.height = idef.sprite_height_px * idef.image_height :=
            (makeSubimages_dims idef sprites _ subs hsub sub
              (List.get?_mem hget)).2
          have hpres := sheetRows_untouched idef pdata rest img1 img'
            (j * idef.image_width * idef.sprite_width_px + u)
            (i * idef.image_height * idef.sprite_height_px + v) hrun ?_
          · rw [hpres]
            exact hval
          · intro q hq hband
            have hlt : i < q.1 := (List.pairwise_cons.mp hpair).1 q hq
            have hmono : (i + 1) * idef.image_height * idef.sprite_height_px ≤
                q.1 * idef.image_height * idef.sprite_height_px :=
              Nat.mul_le_mul_right _ (Nat.mul_le_mul_right _ (by omega))
            have hsucc : (i + 1) * idef.image_height * idef.sprite_height_px =
                i * idef.image_height * idef.sprite_height_px +
                  idef.image_height * idef.sprite_height_px := by
              rw [Nat.succ_mul, Nat.add_mul]
            have hcomm : idef.sprite_height_px * idef.image_height =
                idef.image_height * idef.sprite_height_px := Nat.mul_comm _ _
            rw [hsubh] at hv
            omega
      · have hi' : i' < i := (List.pairwise_cons.mp hpair).1 (i, palette) htail
        match hsp' : pdata.mapM (fun pd => make_sprite pd idef palette') with
        | none => rw [hsp'] at hrun; cases hrun
        | some sprites' =>
          simp only [hsp'] at hrun
          match hsub' : makeSubimages idef sprites' (List.range idef.num_subimages) with
          | none => simp only [hsub'] at hrun; cases hrun
          | some subs' =>
            simp only [hsub'] at hrun
            match hps' : placeSubimages idef i' subs'.enum img with
            | none => simp only [hps'] at hrun; cases hrun
            | some img1 =>
              simp only [hps'] at hrun
              exact ih img1 img' hrun (List.pairwise_cons.mp hpair).2 i palette htail
                sprites subs j sub hsp hsub hget u v hu hv

/-- The claim's property C9: a successful spritesheet is exactly
`subimage_count * grid_w * sprite_w` wide and `palette_count * grid_h *
sprite_h` tall, and the subimage `j` rendered with palette `i` sits at pixel
origin `(j * grid_w * sprite_w, i * grid_h * sprite_h)`, so row band `i`
holds the subimages rendered with palette `i`. -/
theorem spritesheet_layout (idef : ImageDef) (pdata : List (List Nat))
    (palettes : List (List Rgba)) (img : Img)
    (hmk : make_spritesheet idef pdata palettes = some img) :
    img.width = idef.num_subimages * idef.image_width * idef.sprite_width_px ∧
    img.height = idef.num_palettes * idef.image_height * idef.sprite_height_px ∧
    ∀ i palette sprites subs j sub,
      palettes.get? i = some palette →
      pdata.mapM (fun pd => make_sprite pd idef palette) = some sprites →
      makeSubimages idef sprites (List.range idef.num_subimages) = some subs →
      subs.get? j = some sub →
      ∀ u v, u < sub.width → v < sub.height →
        img.pix (j * idef.image_width * idef.sprite_width_px + u)
          (i * idef.image_height * idef.sprite_height_px + v) = sub.pix u v := by
  rw [make_spritesheet] at hmk
  obtain ⟨hw, hh⟩ := sheetRows_dims idef pdata palettes.enum _ img hmk
  refine ⟨hw, hh, ?_⟩
  intro i palette sprites subs j sub hpal hsp hsub hget u v hu hv
  exact sheetRows_write idef pdata palettes.enum _ img hmk
    (pairwise_fst_lt_enumFrom palettes 0) i palette
    (mem_enum_of_get? palettes i palette hpal) sprites subs j sub hsp hsub hget u v hu hv

/-- Sample descriptor for the C9 witness: one palette, one subimage, a 1×1
grid of one 1×1 sprite at 8 bpp, no compression. -/
def idefC9 : ImageDef :=
  { data_length := 0, has_transparency := false, is_encrypted := false
    compression := CompressionType.None, pixel_data_type := PixelDataType.Bpp 8
    num_sprites := 1, sprite_width_px := 1, sprite_height_px := 1
    offset_x := 0, offset_y := 0, image_width := 1, image_height := 1
    num_palettes := 1, transparent_color_index := 9, palette_data_offset := 0
    pixel_data_offset := 0, num_subimages := 1 }

/-- C9 witness: a concrete one-sprite spritesheet run succeeds with the
claimed dimensions, and its single pixel is the palette color placed by the
layout theorem. -/
theorem spritesheet_layout_witness :
    ∃ img, make_spritesheet idefC9 [[0]] [[⟨9, 8, 7, 255⟩]] = some img ∧
      img.width = idefC9.num_subimages * idefC9.image_width * idefC9.sprite_width_px ∧
      img.height = idefC9.num_palettes * idefC9.image_height * idefC9.sprite_height_px ∧
      img.pix 0 0 = ⟨9, 8, 7, 255⟩ := by
  obtain ⟨hw, hh, hplace⟩ :=
    spritesheet_layout idefC9 [[0]] [[⟨9, 8, 7, 255⟩]] _ rfl
  exact ⟨_, rfl, hw, hh, rfl⟩

end Paradoodle
